import Mathlib

/-!
Verification of the local price cache subsystem of StockMarketHistoryCruncher.

Shallow embedding conventions:
* Calendar dates and timestamps are integer day numbers (`Int`); the source
  subtracts Python dates and timedeltas at day granularity, which corresponds
  to integer subtraction here.
* Prices are modelled as integers; no claim performs arithmetic on price
  values, only storage and retrieval.
* The SQLite tables are modelled as follows.  `daily_bars` has constraint
  UNIQUE(ticker, date) and all reads of it in the cache module are
  per-ticker with ORDER BY date, so it is modelled as a map from ticker to
  the list of (date, bar) rows kept strictly sorted by date, the canonical
  representation of a keyed table.  `ticker_metadata` (ticker PRIMARY KEY)
  is a map from ticker to an optional row; `first_date` and `last_date` are
  written together by the single metadata writer (`_update_metadata`) and
  are therefore bundled as one optional pair `coverage`.
* The upstream fetch function (Polygon API) is an oracle parameter; its two
  distinguished failure kinds follow the string tests in
  `CacheManager.get_bars` (messages containing 403 / NOT_AUTHORIZED versus
  everything else).
-/

namespace PriceCache

/-- One daily OHLCV record, the value part of a `daily_bars` row
(columns open, high, low, close, volume). -/
structure BarData where
  o : Int
  h : Int
  l : Int
  c : Int
  v : Int
deriving DecidableEq, Repr

/-- A row of `ticker_metadata` (without the ticker key itself). -/
structure MetaRow where
  coverage : Option (Int × Int)
  last_updated : Option Int
  last_full_refresh : Option Int
  total_bars : Nat
  is_sp500 : Bool
  status : String
deriving DecidableEq, Repr

/-- The durable store: `daily_bars` (per ticker, strictly date-sorted rows)
and `ticker_metadata`. -/
structure DB where
  bars : String → List (Int × BarData)
  meta : String → Option MetaRow

/-- Python str.upper, restricted to the per-character mapping
(`Char.toUpper`), which is exact for ASCII ticker symbols. -/
def upperStr (s : String) : String :=
  ⟨s.data.map Char.toUpper⟩

/-- Insertion of one (date, bar) row by INSERT OR REPLACE under the
UNIQUE(ticker, date) constraint: replace in place when the date is present,
otherwise insert at the sorted position. -/
def upsertDate (d : Int) (v : BarData) : List (Int × BarData) → List (Int × BarData)
  | [] => [(d, v)]
  | (d1, v1) :: rest =>
    if d = d1 then (d, v) :: rest
    else if d < d1 then (d, v) :: (d1, v1) :: rest
    else (d1, v1) :: upsertDate d v rest

/-- `CacheManager._store_bars`: upsert every bar of the list in order. -/
def storeBarsList (bs : List (Int × BarData)) (l : List (Int × BarData)) :
    List (Int × BarData) :=
  match bs with
  | [] => l
  | b :: rest => storeBarsList rest (upsertDate b.1 b.2 l)

/-- `CacheManager._store_bars` at the database level (the ticker argument
arrives already upper-cased from `get_bars`). -/
def store_bars (t : String) (bs : List (Int × BarData)) (db : DB) : DB :=
  { db with bars := fun u => if u = t then storeBarsList bs (db.bars t) else db.bars u }

/-- SQL SELECT value lookup by date within one ticker. -/
def lookupDate (d : Int) : List (Int × BarData) → Option BarData
  | [] => none
  | (d1, v) :: rest => if d = d1 then some v else lookupDate d rest

/-- `CacheManager._update_metadata`: recompute MIN(date), MAX(date) and
COUNT(*) for the ticker; when at least one row exists, upsert the metadata
row (preserving last_full_refresh, is_sp500 and status on conflict, with the
schema defaults on a fresh insert).  When no rows exist the SELECT yields a
NULL first_date and the function writes nothing. -/
def update_metadata (t : String) (now : Int) (db : DB) : DB :=
  match ((db.bars t).map Prod.fst).min?, ((db.bars t).map Prod.fst).max? with
  | some fd, some ld =>
    let row : MetaRow :=
      { coverage := some (fd, ld)
        last_updated := some now
        last_full_refresh := match db.meta t with
          | some old => old.last_full_refresh
          | none => none
        total_bars := (db.bars t).length
        is_sp500 := match db.meta t with
          | some old => old.is_sp500
          | none => false
        status := match db.meta t with
          | some old => old.status
          | none => "active" }
    { db with meta := fun u => if u = t then some row else db.meta u }
  | _, _ => db

/-- `CacheManager._get_from_cache`: rows of the ticker with
start <= date <= end, ordered ascending by date (the stored list is
date-sorted, so filtering preserves the order). -/
def readBars (db : DB) (t : String) (s e : Int) : List (Int × BarData) :=
  (db.bars t).filter (fun b => decide (s ≤ b.1 ∧ b.1 ≤ e))

/-- `CacheManager._invalidate_range`: DELETE the rows of the ticker between
the bounds, then `_update_metadata`.  Returns (rows removed, new store). -/
def invalidate_range (t : String) (s e : Int) (now : Int) (db : DB) : Nat × DB :=
  let kept := (db.bars t).filter (fun b => !(decide (s ≤ b.1 ∧ b.1 ≤ e)))
  let removed := (db.bars t).length - kept.length
  let db1 : DB := { db with bars := fun u => if u = t then kept else db.bars u }
  (removed, update_metadata t now db1)

/-- `CacheManager.invalidate_ticker`: upper-case the symbol, count its rows,
then DELETE all of its `daily_bars` rows and its `ticker_metadata` row. -/
def invalidate_ticker (t0 : String) (db : DB) : Nat × DB :=
  let t := upperStr t0
  ((db.bars t).length,
   { bars := fun u => if u = t then [] else db.bars u
     meta := fun u => if u = t then none else db.meta u })

/-- `CacheManager.get_cache_status`: upper-case the symbol and read its
metadata row. -/
def get_cache_status (t0 : String) (db : DB) : Option MetaRow :=
  db.meta (upperStr t0)

/-- `CacheManager._determine_fetch_ranges`: no metadata row, or a row with a
NULL first_date, means a full cache miss; otherwise emit the range before
the cached span when the request starts earlier, and the range after it when
the request ends later. -/
def determine_fetch_ranges (db : DB) (t : String) (s e : Int) : List (Int × Int) :=
  match db.meta t with
  | none => [(s, e)]
  | some m =>
    match m.coverage with
    | none => [(s, e)]
    | some (f, l) =>
      (if s < f then [(s, f - 1)] else []) ++ (if e > l then [(l + 1, e)] else [])

/-- Result of one upstream fetch call: a bar list, or one of the two failure
kinds `get_bars` distinguishes (an error message containing 403 or
NOT_AUTHORIZED versus any other exception). -/
inductive FetchResult where
  | ok (bars : List (Int × BarData))
  | authDenied
  | otherError
deriving DecidableEq, Repr

/-- The injected upstream fetch function: symbol, start date, end date. -/
abbrev FetchFn := String → Int → Int → FetchResult

/-- The two exception kinds as classified by `get_bars`. -/
inductive FetchErr where
  | auth
  | other
deriving DecidableEq, Repr

/-- `CacheManager._fetch_and_store`: call the fetch function; an empty
result is logged and nothing is stored; otherwise store the bars and update
the metadata.  Failures propagate as exceptions, classified by kind. -/
def fetch_and_store (fetch : FetchFn) (t : String) (s e : Int) (now : Int) (db : DB) :
    Except FetchErr (Nat × DB) :=
  match fetch t s e with
  | .authDenied => .error .auth
  | .otherError => .error .other
  | .ok bars =>
    if bars.isEmpty then .ok (0, db)
    else .ok (bars.length, update_metadata t now (store_bars t bars db))

/-- The fetch loop of `CacheManager.get_bars` over the missing ranges: on a
403 / NOT_AUTHORIZED failure of a sub-range, retry once with the full
requested range (s, e); if that retry succeeds, break out of the loop; if it
fails in any way, continue with the remaining ranges on the unchanged store;
any other failure kind is re-raised.  The second component of a successful
result lists the upstream calls issued, in order. -/
def fetchLoop (fetch : FetchFn) (t : String) (s e : Int) (now : Int) :
    List (Int × Int) → DB → Except Unit (DB × List (Int × Int))
  | [], db => .ok (db, [])
  | (rs, re) :: rest, db =>
    match fetch_and_store fetch t rs re now db with
    | .ok (_, db1) =>
      match fetchLoop fetch t s e now rest db1 with
      | .ok (db2, log) => .ok (db2, (rs, re) :: log)
      | .error u => .error u
    | .error .auth =>
      match fetch_and_store fetch t s e now db with
      | .ok (_, db1) => .ok (db1, [(rs, re), (s, e)])
      | .error _ =>
        match fetchLoop fetch t s e now rest db with
        | .ok (db2, log) => .ok (db2, (rs, re) :: (s, e) :: log)
        | .error u => .error u
    | .error .other => .error ()

/-- The observable outcome of a successful `get_bars` call: the store after
the call, the upstream calls issued, and the returned bar list. -/
structure GetBarsOut where
  db : DB
  fetched : List (Int × Int)
  result : List (Int × BarData)

/-- `CacheManager.get_bars`: upper-case the symbol, optionally invalidate
the requested range first, fetch the missing ranges, and finally return the
cached rows of the full requested range. -/
def get_bars (fetch : FetchFn) (db : DB) (ticker : String) (s e : Int)
    (forceRefresh : Bool) (now : Int) : Except Unit GetBarsOut :=
  let t := upperStr ticker
  let db0 := if forceRefresh then (invalidate_range t s e now db).2 else db
  match fetchLoop fetch t s e now (determine_fetch_ranges db0 t s e) db0 with
  | .error u => .error u
  | .ok (db1, log) => .ok ⟨db1, log, readBars db1 t s e⟩

/-- The three refresh strategies of `cache.refresh.RefreshStrategy`. -/
inductive RefreshStrategy where
  | append_only
  | rolling_window
  | full_refresh
deriving DecidableEq, Repr

/-- The configurable parameters of `cache.refresh.RefreshPolicy`, with the
class-level defaults. -/
structure RefreshPolicy where
  always_fetch_days : Int := 2
  rolling_window_days : Int := 90
  rolling_refresh_interval_days : Int := 7
  full_refresh_interval_days : Int := 30
deriving DecidableEq, Repr

/-- `RefreshPolicy.decide_strategy`: force_full, an absent metadata row, a
never-set last_full_refresh, or a due full refresh give FULL_REFRESH; then a
due rolling refresh (when last_updated is set) gives ROLLING_WINDOW; the
default is APPEND_ONLY.  `now` is the current time in days. -/
def decide_strategy (p : RefreshPolicy) (metadata : Option MetaRow)
    (force_full : Bool) (now : Int) : RefreshStrategy :=
  if force_full then .full_refresh
  else
    match metadata with
    | none => .full_refresh
    | some m =>
      match m.last_full_refresh with
      | none => .full_refresh
      | some lfr =>
        if now - lfr ≥ p.full_refresh_interval_days then .full_refresh
        else
          match m.last_updated with
          | none => .append_only
          | some lu =>
            if now - lu ≥ p.rolling_refresh_interval_days then .rolling_window
            else .append_only

/-- `RefreshPolicy.get_refresh_range`: the fetch window for a strategy;
`none` is the (None, None) sentinel meaning nothing to fetch. -/
def get_refresh_range (p : RefreshPolicy) (strategy : RefreshStrategy)
    (start_date end_date : Int) (cached_last_date : Option Int) (today : Int) :
    Option (Int × Int) :=
  match strategy with
  | .full_refresh => some (start_date, end_date)
  | .rolling_window =>
    some (max (today - p.rolling_window_days) start_date, end_date)
  | .append_only =>
    match cached_last_date with
    | none => some (start_date, end_date)
    | some cl =>
      let fetch_start := min (today - p.always_fetch_days) (cl + 1)
      if fetch_start > end_date then none
      else some (fetch_start, end_date)

/-- A row of the `cache_jobs` table (time columns omitted). -/
structure JobRow where
  id : Nat
  job_type : String
  status : String
  tickers_total : Nat
  tickers_processed : Nat
  tickers_failed : Nat
  error_message : Option String
deriving DecidableEq, Repr

/-- State of the batch orchestrator: the `cache_jobs` table with its
AUTOINCREMENT counter, plus the module globals of `sp500_cacher`
(whether the background thread is alive, and `_current_job_id`). -/
structure JobsState where
  jobs : List JobRow
  thread_alive : Bool
  current_job_id : Option Nat
  next_id : Nat

/-- `create_cache_job`: INSERT a row with status running, returning its id. -/
def create_cache_job (job_type : String) (tickers_total : Nat) (js : JobsState) :
    Nat × JobsState :=
  (js.next_id,
   { js with
     jobs := js.jobs ++ [{ id := js.next_id, job_type := job_type,
                           status := "running", tickers_total := tickers_total,
                           tickers_processed := 0, tickers_failed := 0,
                           error_message := none }]
     next_id := js.next_id + 1 })

/-- `update_job_progress`: UPDATE the processed and failed counters of the
row with the given id. -/
def update_job_progress (job_id : Nat) (processed failed : Nat) (js : JobsState) :
    JobsState :=
  { js with jobs := js.jobs.map (fun j =>
      if j.id = job_id then
        { j with tickers_processed := processed, tickers_failed := failed }
      else j) }

/-- `complete_job`: UPDATE the status and error message of the row with the
given id. -/
def complete_job (job_id : Nat) (status : String) (msg : Option String)
    (js : JobsState) : JobsState :=
  { js with jobs := js.jobs.map (fun j =>
      if j.id = job_id then { j with status := status, error_message := msg }
      else j) }

/-- Outcome of one `get_bars` call inside the batch loop of
`SP500Cacher.cache_all`, after its rate-limit handling: success (possibly
after the single rate-limit retry) or a recorded failure (a non-rate-limit
exception, or a repeated rate-limit failure). -/
inductive TickerOutcome where
  | success
  | rateLimitedThenOk
  | rateLimitedThenFail
  | otherFailure
deriving DecidableEq, Repr

/-- The counters accumulated by `SP500Cacher.cache_all`. -/
structure CacheAllResult where
  success_count : Nat
  fail_count : Nat
  failed_tickers : List String
deriving DecidableEq, Repr

/-- The loop of `SP500Cacher.cache_all` over the universe: classify each
symbol outcome, then fire the progress callback with the 1-based index. -/
def cacheAllGo (onp : Nat → String → JobsState → JobsState) :
    List (String × TickerOutcome) → Nat → CacheAllResult → JobsState →
    CacheAllResult × JobsState
  | [], _, acc, js => (acc, js)
  | (tk, outc) :: rest, i, acc, js =>
    let acc1 :=
      match outc with
      | .success => { acc with success_count := acc.success_count + 1 }
      | .rateLimitedThenOk => { acc with success_count := acc.success_count + 1 }
      | .rateLimitedThenFail =>
        { acc with fail_count := acc.fail_count + 1,
                   failed_tickers := acc.failed_tickers ++ [tk] }
      | .otherFailure =>
        { acc with fail_count := acc.fail_count + 1,
                   failed_tickers := acc.failed_tickers ++ [tk] }
    cacheAllGo onp rest (i + 1) acc1 (onp (i + 1) tk js)

/-- `SP500Cacher.cache_all`, abstracted over the per-symbol outcomes. -/
def cache_all (outcomes : List (String × TickerOutcome))
    (onp : Nat → String → JobsState → JobsState) (js : JobsState) :
    CacheAllResult × JobsState :=
  cacheAllGo onp outcomes 0 ⟨0, 0, []⟩ js

/-- The bounded failed-ticker summary built by `run_sp500_cache_job`. -/
def error_summary (failed : List String) : String :=
  let base := "Failed tickers: " ++ String.intercalate ", " (failed.take 10)
  if failed.length > 10 then
    base ++ " and " ++ toString (failed.length - 10) ++ " more"
  else base

/-- `run_sp500_cache_job` (happy path of the orchestrator body): run
`cache_all` with the progress callback `on_progress`, which persists
(processed, failed_count) into the job row.  The local variable
failed_count is 0 throughout the loop: it is reassigned from the result
only after `cache_all` returns, when no further progress callback fires.
Finally the job is completed with the terminal status. -/
def run_sp500_cache_job (outcomes : List (String × TickerOutcome))
    (job_id : Nat) (js : JobsState) : JobsState :=
  let failed_count : Nat := 0
  let r := cache_all outcomes
    (fun processed _tk s => update_job_progress job_id processed failed_count s) js
  if r.1.fail_count > 0 then
    complete_job job_id "completed_with_errors"
      (some (error_summary r.1.failed_tickers)) r.2
  else
    complete_job job_id "completed" none r.2

/-- The response of `start_sp500_cache_job`. -/
inductive StartJobResult where
  | started (job_id : Nat) (tickers_total : Nat)
  | already_running (job_id : Option Nat)

/-- `start_sp500_cache_job`: when the background thread is alive, answer
already_running with the current job id and change nothing; otherwise
create the job row (status running) and spawn the thread for it. -/
def start_sp500_cache_job (tickers : List (String × TickerOutcome))
    (js : JobsState) : StartJobResult × JobsState :=
  if js.thread_alive then
    (.already_running js.current_job_id, js)
  else
    let cr := create_cache_job "sp500_full" tickers.length js
    (.started cr.1 tickers.length,
     { cr.2 with thread_alive := true, current_job_id := some cr.1 })

/-- The two events of the orchestrator, sequentialised: starting a job, and
the background thread running to completion (its body then its death, which
clears `_current_job_id` and leaves the thread not alive). -/
inductive JobEvent where
  | start (tickers : List (String × TickerOutcome))
  | finish (outcomes : List (String × TickerOutcome))

/-- One transition of the orchestrator state. -/
def job_step (js : JobsState) : JobEvent → JobsState
  | .start tks => (start_sp500_cache_job tks js).2
  | .finish outcomes =>
    match js.thread_alive, js.current_job_id with
    | true, some jid =>
      let js1 := run_sp500_cache_job outcomes jid js
      { js1 with thread_alive := false, current_job_id := none }
    | _, _ => js

/-- The jobs with status running. -/
def running_jobs (js : JobsState) : List JobRow :=
  js.jobs.filter (fun j => j.status == "running")

/-! ### Helper lemmas -/

theorem char_toUpper_idem (c : Char) : c.toUpper.toUpper = c.toUpper := by
  unfold Char.toUpper
  by_cases h : c.toNat ≥ 97 ∧ c.toNat ≤ 122
  · rw [if_pos h]
    obtain ⟨h1, h2⟩ := h
    generalize c.toNat = n at h1 h2
    interval_cases n <;> decide
  · rw [if_neg h, if_neg h]

theorem upperStr_idem (s : String) : upperStr (upperStr s) = upperStr s := by
  unfold upperStr
  simp only [List.map_map]
  congr 1
  apply List.map_congr_left
  intro a _
  exact char_toUpper_idem a

/-- Strict date-sortedness of the per-ticker rows: the well-formedness of
the canonical representation of the UNIQUE(ticker, date) table. -/
abbrev DatesSorted (l : List (Int × BarData)) : Prop :=
  l.Pairwise (fun a b => a.1 < b.1)

theorem mem_upsertDate {d : Int} {v : BarData} {b : Int × BarData} :
    ∀ {l : List (Int × BarData)}, b ∈ upsertDate d v l → b = (d, v) ∨ b ∈ l := by
  intro l
  induction l with
  | nil => intro hb; simpa [upsertDate] using hb
  | cons hd tl ih =>
    intro hb
    obtain ⟨d1, v1⟩ := hd
    unfold upsertDate at hb
    by_cases h1 : d = d1
    · rw [if_pos h1] at hb
      rcases List.mem_cons.mp hb with h | h
      · exact Or.inl h
      · exact Or.inr (List.mem_cons_of_mem _ h)
    · rw [if_neg h1] at hb
      by_cases h2 : d < d1
      · rw [if_pos h2] at hb
        rcases List.mem_cons.mp hb with h | h
        · exact Or.inl h
        · exact Or.inr h
      · rw [if_neg h2] at hb
        rcases List.mem_cons.mp hb with h | h
        · exact Or.inr (List.mem_cons.mpr (Or.inl h))
        · rcases ih h with h3 | h3
          · exact Or.inl h3
          · exact Or.inr (List.mem_cons_of_mem _ h3)

theorem sorted_upsertDate (d : Int) (v : BarData) :
    ∀ {l : List (Int × BarData)}, DatesSorted l → DatesSorted (upsertDate d v l) := by
  intro l
  induction l with
  | nil => intro _; simp [upsertDate]
  | cons hd tl ih =>
    intro hs
    obtain ⟨d1, v1⟩ := hd
    obtain ⟨hhd, htl⟩ := List.pairwise_cons.mp hs
    unfold upsertDate
    by_cases h1 : d = d1
    · rw [if_pos h1]
      exact List.pairwise_cons.mpr ⟨fun b hb => h1 ▸ hhd b hb, htl⟩
    · rw [if_neg h1]
      by_cases h2 : d < d1
      · rw [if_pos h2]
        refine List.pairwise_cons.mpr ⟨?_, List.pairwise_cons.mpr ⟨hhd, htl⟩⟩
        intro b hb
        rcases List.mem_cons.mp hb with h | h
        · simp [h]; omega
        · have := hhd b h; simp; omega
      · rw [if_neg h2]
        refine List.pairwise_cons.mpr ⟨?_, ih htl⟩
        intro b hb
        rcases mem_upsertDate hb with h | h
        · simp [h]; omega
        · exact hhd b h

theorem lookupDate_upsertDate (d k : Int) (v : BarData) :
    ∀ (l : List (Int × BarData)),
      lookupDate k (upsertDate d v l) =
        if k = d then some v else lookupDate k l := by
  intro l
  induction l with
  | nil => simp [upsertDate, lookupDate]
  | cons hd tl ih =>
    obtain ⟨d1, v1⟩ := hd
    unfold upsertDate
    by_cases h1 : d = d1
    · subst h1
      by_cases hk : k = d <;> simp [lookupDate, hk]
    · rw [if_neg h1]
      by_cases h2 : d < d1
      · rw [if_pos h2]
        by_cases hk : k = d <;> simp [lookupDate, hk]
      · rw [if_neg h2]
        by_cases hk : k = d1
        · subst hk
          have : ¬ k = d := fun h => h1 h.symm
          simp [lookupDate, this]
        · simp [lookupDate, hk, ih]

theorem lookupDate_eq_none {d : Int} :
    ∀ {l : List (Int × BarData)}, (∀ b ∈ l, b.1 ≠ d) → lookupDate d l = none := by
  intro l
  induction l with
  | nil => intro _; rfl
  | cons hd tl ih =>
    intro h
    have hd1 : hd.1 ≠ d := h hd (List.mem_cons_self _ _)
    obtain ⟨d1, v1⟩ := hd
    have : ¬ d = d1 := fun he => hd1 (by simp [he])
    simp only [lookupDate, if_neg this]
    exact ih fun b hb => h b (List.mem_cons_of_mem _ hb)

theorem exists_mem_of_lookupDate {d : Int} {v : BarData} :
    ∀ {l : List (Int × BarData)}, lookupDate d l = some v → ∃ b ∈ l, b.1 = d := by
  intro l
  induction l with
  | nil => intro h; simp [lookupDate] at h
  | cons hd tl ih =>
    intro h
    obtain ⟨d1, v1⟩ := hd
    by_cases h1 : d = d1
    · exact ⟨(d1, v1), List.mem_cons_self _ _, h1.symm⟩
    · simp only [lookupDate, if_neg h1] at h
      obtain ⟨b, hb, hbd⟩ := ih h
      exact ⟨b, List.mem_cons_of_mem _ hb, hbd⟩

theorem sorted_lookup_ext :
    ∀ {l m : List (Int × BarData)}, DatesSorted l → DatesSorted m →
      (∀ d, lookupDate d l = lookupDate d m) → l = m := by
  intro l
  induction l with
  | nil =>
    intro m _ _ h
    cases m with
    | nil => rfl
    | cons b tl =>
      obtain ⟨d1, v1⟩ := b
      have := h d1
      simp [lookupDate] at this
  | cons a tl ih =>
    intro m hl hm h
    obtain ⟨d1, v1⟩ := a
    cases m with
    | nil =>
      have := h d1
      simp [lookupDate] at this
    | cons b tm =>
      obtain ⟨d2, v2⟩ := b
      replace hl := List.pairwise_cons.mp hl
      replace hm := List.pairwise_cons.mp hm
      have hne1 : ∀ c ∈ tl, c.1 ≠ d1 := fun c hc => by have := hl.1 c hc; omega
      have hne2 : ∀ c ∈ tm, c.1 ≠ d2 := fun c hc => by have := hm.1 c hc; omega
      have hd : d1 = d2 := by
        by_contra hne
        have e1 := h d1
        simp only [lookupDate, if_pos rfl, if_neg hne] at e1
        obtain ⟨c, hc, hcd⟩ := exists_mem_of_lookupDate e1.symm
        have hlt1 := hm.1 c hc
        have e2 := h d2
        have hne21 : ¬ d2 = d1 := fun he => hne he.symm
        simp only [lookupDate, if_pos rfl, if_neg hne21] at e2
        obtain ⟨c2, hc2, hcd2⟩ := exists_mem_of_lookupDate e2
        have hlt2 := hl.1 c2 hc2
        omega
      subst hd
      have hv : v1 = v2 := by
        have := h d1
        simpa [lookupDate] using this
      subst hv
      have htls : ∀ d, lookupDate d tl = lookupDate d tm := by
        intro d
        by_cases hdd : d = d1
        · subst hdd
          rw [lookupDate_eq_none hne1, lookupDate_eq_none hne2]
        · have := h d
          simpa [lookupDate, if_neg hdd] using this
      rw [ih hl.2 hm.2 htls]

theorem sorted_storeBarsList (bs : List (Int × BarData)) :
    ∀ {l : List (Int × BarData)}, DatesSorted l → DatesSorted (storeBarsList bs l) := by
  induction bs with
  | nil => intro l h; exact h
  | cons b rest ih =>
    intro l h
    exact ih (sorted_upsertDate b.1 b.2 h)

/-- The value the bar list itself assigns to a date: the last entry of the
list with that date, if any (later upserts win).  Proof-internal helper. -/
def lastAssign (d : Int) : List (Int × BarData) → Option BarData
  | [] => none
  | b :: bs =>
    match lastAssign d bs with
    | some v => some v
    | none => if b.1 = d then some b.2 else none

theorem lookupDate_storeBarsList (d : Int) :
    ∀ (bs : List (Int × BarData)) (l : List (Int × BarData)),
      lookupDate d (storeBarsList bs l) =
        match lastAssign d bs with
        | some v => some v
        | none => lookupDate d l := by
  intro bs
  induction bs with
  | nil => intro l; rfl
  | cons b rest ih =>
    intro l
    show lookupDate d (storeBarsList rest (upsertDate b.1 b.2 l)) = _
    rw [ih]
    cases hr : lastAssign d rest with
    | some v => simp [lastAssign, hr]
    | none =>
      rw [lookupDate_upsertDate]
      by_cases hbd : b.1 = d
      · simp [lastAssign, hr, hbd, if_pos hbd.symm]
      · have : ¬ d = b.1 := fun he => hbd he.symm
        simp [lastAssign, hr, hbd, if_neg this]

theorem storeBarsList_idem (bs : List (Int × BarData)) {l : List (Int × BarData)}
    (h : DatesSorted l) :
    storeBarsList bs (storeBarsList bs l) = storeBarsList bs l := by
  apply sorted_lookup_ext (sorted_storeBarsList bs (sorted_storeBarsList bs h))
    (sorted_storeBarsList bs h)
  intro d
  rw [lookupDate_storeBarsList, lookupDate_storeBarsList]
  cases lastAssign d bs <;> simp

theorem length_upsertDate_of_lookup {d : Int} {v w : BarData} :
    ∀ {l : List (Int × BarData)}, DatesSorted l → lookupDate d l = some w →
      (upsertDate d v l).length = l.length := by
  intro l
  induction l with
  | nil => intro _ h; simp [lookupDate] at h
  | cons hd tl ih =>
    intro hs hlk
    obtain ⟨d1, v1⟩ := hd
    replace hs := List.pairwise_cons.mp hs
    unfold upsertDate
    by_cases h1 : d = d1
    · rw [if_pos h1]; rfl
    · simp only [lookupDate, if_neg h1] at hlk
      rw [if_neg h1]
      obtain ⟨c, hc, hcd⟩ := exists_mem_of_lookupDate hlk
      have := hs.1 c hc
      have h2 : ¬ d < d1 := by omega
      rw [if_neg h2]
      simp [ih hs.2 hlk]

theorem ranges_no_coverage {db : DB} {t : String} {s e : Int}
    (h : (db.meta t).bind (fun m => m.coverage) = none) :
    determine_fetch_ranges db t s e = [(s, e)] := by
  unfold determine_fetch_ranges
  cases hm : db.meta t with
  | none => rfl
  | some m =>
    rw [hm] at h
    replace h : m.coverage = none := h
    dsimp only
    rw [h]

theorem ranges_covered {db : DB} {t : String} {s e f l : Int}
    (h : (db.meta t).bind (fun m => m.coverage) = some (f, l))
    (h1 : f ≤ s) (h2 : e ≤ l) : determine_fetch_ranges db t s e = [] := by
  unfold determine_fetch_ranges
  cases hm : db.meta t with
  | none =>
    rw [hm] at h
    exact Option.noConfusion (show (none : Option (Int × Int)) = some (f, l) from h)
  | some m =>
    rw [hm] at h
    replace h : m.coverage = some (f, l) := h
    dsimp only
    rw [h]
    dsimp only
    have hn1 : ¬ s < f := by omega
    have hn2 : ¬ e > l := by omega
    rw [if_neg hn1, if_neg hn2]
    rfl

theorem bars_update_metadata (t : String) (now : Int) (db : DB) :
    (update_metadata t now db).bars = db.bars := by
  unfold update_metadata
  cases ((db.bars t).map Prod.fst).min? <;>
    cases ((db.bars t).map Prod.fst).max? <;> rfl

theorem meta_update_metadata_of_bounds {t : String} {now : Int} {db : DB} {fd ld : Int}
    (hmin : ((db.bars t).map Prod.fst).min? = some fd)
    (hmax : ((db.bars t).map Prod.fst).max? = some ld) :
    (update_metadata t now db).meta t =
      some { coverage := some (fd, ld)
             last_updated := some now
             last_full_refresh := match db.meta t with
               | some old => old.last_full_refresh
               | none => none
             total_bars := (db.bars t).length
             is_sp500 := match db.meta t with
               | some old => old.is_sp500
               | none => false
             status := match db.meta t with
               | some old => old.status
               | none => "active" } := by
  unfold update_metadata
  rw [hmin, hmax]
  simp

theorem update_metadata_of_empty {t : String} {now : Int} {db : DB}
    (h : db.bars t = []) : update_metadata t now db = db := by
  unfold update_metadata
  rw [h]
  rfl

theorem fetchLoop_all_auth (fetch : FetchFn) (t : String) (s e now : Int)
    (hall : ∀ a b, fetch t a b = .authDenied) :
    ∀ (ranges : List (Int × Int)) (db : DB),
      ∃ log, fetchLoop fetch t s e now ranges db = .ok (db, log) := by
  intro ranges
  induction ranges with
  | nil => intro db; exact ⟨[], rfl⟩
  | cons r rest ih =>
    intro db
    obtain ⟨rs, re⟩ := r
    have hfs : ∀ a b, fetch_and_store fetch t a b now db = .error .auth := by
      intro a b
      unfold fetch_and_store
      rw [hall a b]
    obtain ⟨log, hlog⟩ := ih db
    refine ⟨(rs, re) :: (s, e) :: log, ?_⟩
    unfold fetchLoop
    rw [hfs rs re, hfs s e, hlog]

/-! ### Claim theorems -/

/-- Claim C10: ticker symbols are case-normalized at the public interface:
get_bars, get_cache_status and invalidate_ticker each behave identically on
a ticker string and on its upper-cased form, because every operation
upper-cases the symbol before touching the store. -/
theorem ticker_upper_normalization (fetch : FetchFn) (db : DB) (t : String)
    (s e : Int) (force : Bool) (now : Int) :
    get_bars fetch db t s e force now = get_bars fetch db (upperStr t) s e force now ∧
    get_cache_status t db = get_cache_status (upperStr t) db ∧
    invalidate_ticker t db = invalidate_ticker (upperStr t) db := by
  refine ⟨?_, ?_, ?_⟩ <;>
    simp only [get_bars, get_cache_status, invalidate_ticker, upperStr_idem]

/-- Claim C1: with no coverage metadata for the symbol, the range reconciler
returns the single full range; otherwise it emits the range before the
cached span exactly when the request starts before it, the range after the
cached span exactly when the request ends after it, and every returned range
reaches strictly outside the cached span (so no returned sub-range lies
strictly inside it). -/
theorem determine_fetch_ranges_spec (db : DB) (t : String) (s e : Int) :
    ((db.meta t).bind (fun m => m.coverage) = none →
       determine_fetch_ranges db t s e = [(s, e)]) ∧
    (∀ f l, (db.meta t).bind (fun m => m.coverage) = some (f, l) →
       (((s, f - 1) ∈ determine_fetch_ranges db t s e) ↔ s < f) ∧
       (((l + 1, e) ∈ determine_fetch_ranges db t s e) ↔ e > l) ∧
       (∀ a b, (a, b) ∈ determine_fetch_ranges db t s e → a < f ∨ l < b)) := by
  constructor
  · exact fun h => ranges_no_coverage h
  · intro f l h
    have hr : determine_fetch_ranges db t s e =
        (if s < f then [(s, f - 1)] else []) ++ (if e > l then [(l + 1, e)] else []) := by
      unfold determine_fetch_ranges
      cases hm : db.meta t with
      | none =>
        rw [hm] at h
        exact Option.noConfusion (show (none : Option (Int × Int)) = some (f, l) from h)
      | some m =>
        rw [hm] at h
        replace h : m.coverage = some (f, l) := h
        dsimp only
        rw [h]
    rw [hr]
    refine ⟨⟨?_, ?_⟩, ⟨?_, ?_⟩, ?_⟩
    · intro hmem
      rcases List.mem_append.mp hmem with hm1 | hm1
      · by_cases h1 : s < f
        · exact h1
        · rw [if_neg h1] at hm1; simp at hm1
      · by_cases h2 : e > l
        · rw [if_pos h2] at hm1
          simp only [List.mem_singleton, Prod.mk.injEq] at hm1
          omega
        · rw [if_neg h2] at hm1; simp at hm1
    · intro h1
      exact List.mem_append.mpr (Or.inl (by rw [if_pos h1]; simp))
    · intro hmem
      rcases List.mem_append.mp hmem with hm1 | hm1
      · by_cases h1 : s < f
        · rw [if_pos h1] at hm1
          simp only [List.mem_singleton, Prod.mk.injEq] at hm1
          omega
        · rw [if_neg h1] at hm1; simp at hm1
      · by_cases h2 : e > l
        · exact h2
        · rw [if_neg h2] at hm1; simp at hm1
    · intro h2
      exact List.mem_append.mpr (Or.inr (by rw [if_pos h2]; simp))
    · intro a b hab
      rcases List.mem_append.mp hab with hm1 | hm1
      · by_cases h1 : s < f
        · rw [if_pos h1] at hm1
          simp only [List.mem_singleton, Prod.mk.injEq] at hm1
          left; omega
        · rw [if_neg h1] at hm1; simp at hm1
      · by_cases h2 : e > l
        · rw [if_pos h2] at hm1
          simp only [List.mem_singleton, Prod.mk.injEq] at hm1
          right; omega
        · rw [if_neg h2] at hm1; simp at hm1

/-- A concrete store for the C1 witness: AAPL covered on days 10..20. -/
def dbC1 : DB :=
  { bars := fun _ => []
    meta := fun u => if u = "AAPL" then
        some { coverage := some (10, 20), last_updated := none,
               last_full_refresh := none, total_bars := 0,
               is_sp500 := false, status := "active" }
      else none }

/-- Witness for C1: with cached span 10..20 and request 5..25, the range
before the cached span is returned. -/
theorem determine_fetch_ranges_spec_witness :
    ((5 : Int), (9 : Int)) ∈ determine_fetch_ranges dbC1 "AAPL" 5 25 := by
  have h := (determine_fetch_ranges_spec dbC1 "AAPL" 5 25).2 10 20 (by rfl)
  exact h.1.mpr (by decide)

theorem get_bars_no_force (fetch : FetchFn) (db : DB) (ticker : String)
    (s e now : Int) :
    get_bars fetch db ticker s e false now =
      match fetchLoop fetch (upperStr ticker) s e now
          (determine_fetch_ranges db (upperStr ticker) s e) db with
      | .error u => .error u
      | .ok (db1, log) => .ok ⟨db1, log, readBars db1 (upperStr ticker) s e⟩ := rfl

/-- Claim C5: with no cached coverage and a successful upstream call, the
cache manager issues exactly one fetch, covering exactly the requested
range; with the request fully inside the cached coverage it issues zero
fetches; and every successful call returns exactly the stored rows of the
full requested range. -/
theorem get_bars_fetch_count_spec (fetch : FetchFn) (db : DB) (ticker : String)
    (s e : Int) (now : Int) :
    ((db.meta (upperStr ticker)).bind (fun m => m.coverage) = none →
       ∀ bars, fetch (upperStr ticker) s e = .ok bars →
         ∃ out, get_bars fetch db ticker s e false now = .ok out ∧
           out.fetched = [(s, e)]) ∧
    (∀ f l, (db.meta (upperStr ticker)).bind (fun m => m.coverage) = some (f, l) →
       f ≤ s → e ≤ l →
       get_bars fetch db ticker s e false now =
         .ok ⟨db, [], readBars db (upperStr ticker) s e⟩) ∧
    (∀ out, get_bars fetch db ticker s e false now = .ok out →
       out.result = readBars out.db (upperStr ticker) s e) := by
  refine ⟨?_, ?_, ?_⟩
  · intro hcov bars hfetch
    have hr := ranges_no_coverage (s := s) (e := e) hcov
    have hok : ∃ n db1, fetch_and_store fetch (upperStr ticker) s e now db = .ok (n, db1) := by
      unfold fetch_and_store
      rw [hfetch]
      dsimp only
      by_cases hb : bars.isEmpty
      · rw [if_pos hb]; exact ⟨0, db, rfl⟩
      · rw [if_neg hb]
        exact ⟨bars.length, update_metadata (upperStr ticker) now
          (store_bars (upperStr ticker) bars db), rfl⟩
    obtain ⟨n, db1, hfs⟩ := hok
    refine ⟨⟨db1, [(s, e)], readBars db1 (upperStr ticker) s e⟩, ?_, rfl⟩
    rw [get_bars_no_force, hr]
    unfold fetchLoop
    rw [hfs]
    rfl
  · intro f l hcov h1 h2
    have hr := ranges_covered (s := s) (e := e) hcov h1 h2
    rw [get_bars_no_force, hr]
    rfl
  · intro out hout
    rw [get_bars_no_force] at hout
    cases hloop : fetchLoop fetch (upperStr ticker) s e now
        (determine_fetch_ranges db (upperStr ticker) s e) db with
    | error u => rw [hloop] at hout; exact Except.noConfusion hout
    | ok p =>
      obtain ⟨db1, log⟩ := p
      rw [hloop] at hout
      have : (⟨db1, log, readBars db1 (upperStr ticker) s e⟩ : GetBarsOut) = out :=
        Except.ok.inj hout
      rw [← this]

/-- A concrete store for the C5 witness: AAPL covered on days 0..100. -/
def dbC5 : DB :=
  { bars := fun u => if u = "AAPL" then [(15, ⟨1, 2, 0, 1, 9⟩)] else []
    meta := fun u => if u = "AAPL" then
        some { coverage := some (0, 100), last_updated := some 0,
               last_full_refresh := none, total_bars := 1,
               is_sp500 := false, status := "active" }
      else none }

/-- Witness for C5: a request fully inside the cached coverage issues zero
fetches and returns the cached rows, even when every upstream call would
fail. -/
theorem get_bars_fetch_count_spec_witness :
    get_bars (fun _ _ _ => FetchResult.otherError) dbC5 "AAPL" 10 20 false 0 =
      .ok ⟨dbC5, [], readBars dbC5 (upperStr "AAPL") 10 20⟩ :=
  (get_bars_fetch_count_spec (fun _ _ _ => FetchResult.otherError) dbC5 "AAPL"
    10 20 0).2.1 0 100 (by rfl) (by decide) (by decide)

/-- Claim C2: when a sub-range fetch fails authorization-denied, the loop
immediately retries exactly once with the full requested range; a
successful retry ends the loop; a failed retry (of any kind) does not
raise and proceeds with the remaining ranges on the unchanged store; a
sub-range failure of any other kind propagates immediately, aborting the
loop; consequently, when every upstream call is authorization-denied,
get_bars does not raise and returns exactly the already-cached rows. -/
theorem get_bars_auth_retry_spec (fetch : FetchFn) (t : String)
    (s e now rs re : Int) (rest : List (Int × Int)) (db : DB) :
    ((fetch_and_store fetch t rs re now db = .error .auth →
       ∀ n db1, fetch_and_store fetch t s e now db = .ok (n, db1) →
         fetchLoop fetch t s e now ((rs, re) :: rest) db =
           .ok (db1, [(rs, re), (s, e)])) ∧
     (fetch_and_store fetch t rs re now db = .error .auth →
       ∀ err, fetch_and_store fetch t s e now db = .error err →
         fetchLoop fetch t s e now ((rs, re) :: rest) db =
           (fetchLoop fetch t s e now rest db).map
             (fun p => (p.1, (rs, re) :: (s, e) :: p.2))) ∧
     (fetch_and_store fetch t rs re now db = .error .other →
       fetchLoop fetch t s e now ((rs, re) :: rest) db = .error ()) ∧
     ((∀ a b, fetch (upperStr t) a b = .authDenied) →
       ∃ log, get_bars fetch db t s e false now =
         .ok ⟨db, log, readBars db (upperStr t) s e⟩)) := by
  refine ⟨?_, ?_, ?_, ?_⟩
  · intro hauth n db1 hfull
    unfold fetchLoop
    rw [hauth, hfull]
  · intro hauth err hfull
    rw [fetchLoop, hauth, hfull]
    cases fetchLoop fetch t s e now rest db with
    | error u => rfl
    | ok p => obtain ⟨db2, log⟩ := p; rfl
  · intro hother
    unfold fetchLoop
    rw [hother]
  · intro hall
    obtain ⟨log, hlog⟩ := fetchLoop_all_auth fetch (upperStr t) s e now hall
      (determine_fetch_ranges db (upperStr t) s e) db
    refine ⟨log, ?_⟩
    rw [get_bars_no_force, hlog]

/-- The upstream oracle for the C2 witness: the full range 0..10 returns an
empty page, every narrower slice is rejected as not authorized. -/
def fetchC2 : FetchFn := fun _ a b =>
  if a = 0 ∧ b = 10 then .ok [] else .authDenied

/-- An empty store for the C2 witness. -/
def dbC2 : DB := { bars := fun _ => [], meta := fun _ => none }

/-- Witness for C2: the sub-range 0..4 is rejected as not authorized, the
loop retries once with the full range 0..10 and then stops. -/
theorem get_bars_auth_retry_spec_witness :
    fetchLoop fetchC2 "AAPL" 0 10 0 [(0, 4)] dbC2 = .ok (dbC2, [(0, 4), (0, 10)]) :=
  (get_bars_auth_retry_spec fetchC2 "AAPL" 0 10 0 0 4 [] dbC2).1 rfl 0 dbC2 rfl

/-- Claim C6: decide_strategy returns FULL_REFRESH whenever force_full is
set, metadata is absent, last_full_refresh was never set, or the full
refresh interval has elapsed; otherwise, with last_updated set, it returns
ROLLING_WINDOW exactly when the rolling refresh interval has elapsed and
APPEND_ONLY otherwise (and APPEND_ONLY when last_updated was never set). -/
theorem decide_strategy_spec (p : RefreshPolicy) (metadata : Option MetaRow)
    (force : Bool) (now : Int) :
    ((force = true → decide_strategy p metadata force now = .full_refresh) ∧
     (metadata = none → decide_strategy p metadata force now = .full_refresh) ∧
     (∀ m, metadata = some m → m.last_full_refresh = none →
        decide_strategy p metadata force now = .full_refresh) ∧
     (∀ m lfr, metadata = some m → m.last_full_refresh = some lfr →
        now - lfr ≥ p.full_refresh_interval_days →
        decide_strategy p metadata force now = .full_refresh) ∧
     (∀ m lfr lu, force = false → metadata = some m →
        m.last_full_refresh = some lfr →
        now - lfr < p.full_refresh_interval_days →
        m.last_updated = some lu →
        (decide_strategy p metadata force now = .rolling_window ↔
           now - lu ≥ p.rolling_refresh_interval_days) ∧
        (decide_strategy p metadata force now = .append_only ↔
           now - lu < p.rolling_refresh_interval_days)) ∧
     (∀ m lfr, force = false → metadata = some m →
        m.last_full_refresh = some lfr →
        now - lfr < p.full_refresh_interval_days →
        m.last_updated = none →
        decide_strategy p metadata force now = .append_only)) := by
  refine ⟨?_, ?_, ?_, ?_, ?_, ?_⟩
  · intro hf
    unfold decide_strategy
    rw [if_pos hf]
  · rintro rfl
    unfold decide_strategy
    cases force <;> simp
  · rintro m rfl hlfr
    unfold decide_strategy
    cases force <;> simp [hlfr]
  · rintro m lfr rfl hlfr hdue
    unfold decide_strategy
    cases force <;> simp [hlfr, if_pos hdue]
  · rintro m lfr lu rfl rfl hlfr hnot hlu
    unfold decide_strategy
    simp only [Bool.false_eq_true, if_false, hlfr, hlu,
      if_neg (by omega : ¬ now - lfr ≥ p.full_refresh_interval_days)]
    by_cases hroll : now - lu ≥ p.rolling_refresh_interval_days
    · rw [if_pos hroll]
      constructor
      · exact ⟨fun _ => hroll, fun _ => rfl⟩
      · exact ⟨fun h => RefreshStrategy.noConfusion h, fun h => by omega⟩
    · rw [if_neg hroll]
      constructor
      · exact ⟨fun h => RefreshStrategy.noConfusion h, fun h => by omega⟩
      · exact ⟨fun _ => by omega, fun _ => rfl⟩
  · rintro m lfr rfl rfl hlfr hnot hlu
    unfold decide_strategy
    simp only [Bool.false_eq_true, if_false, hlfr, hlu,
      if_neg (by omega : ¬ now - lfr ≥ p.full_refresh_interval_days)]

/-- Metadata for the C6 witness: full refresh 20 days ago (not due at the
default 30-day interval), last update 80 days ago (past the default 7-day
rolling interval). -/
def metaC6 : MetaRow :=
  { coverage := some (0, 0), last_updated := some 20, last_full_refresh := some 80,
    total_bars := 1, is_sp500 := false, status := "active" }

/-- Witness for C6 at now = 100 with the default policy parameters. -/
theorem decide_strategy_spec_witness :
    decide_strategy {} (some metaC6) false 100 = .rolling_window := by
  have h := (decide_strategy_spec {} (some metaC6) false 100).2.2.2.2.1
    metaC6 80 20 rfl rfl rfl (by decide) rfl
  exact h.1.mpr (by decide)

/-- Claim C7: get_refresh_range computes the fetch window from the
strategy: ROLLING_WINDOW gives (max(today - rollingWindowDays, reqStart),
reqEnd); APPEND_ONLY with a known cachedLast computes
fetchStart = min(today - alwaysFetchDays, cachedLast + 1) and yields the
none sentinel exactly when fetchStart > reqEnd, else (fetchStart, reqEnd);
FULL_REFRESH gives (reqStart, reqEnd). -/
theorem get_refresh_range_spec (p : RefreshPolicy) (s e today : Int)
    (cached_last : Option Int) :
    (get_refresh_range p .rolling_window s e cached_last today =
       some (max (today - p.rolling_window_days) s, e)) ∧
    (∀ cl, cached_last = some cl →
       (min (today - p.always_fetch_days) (cl + 1) > e →
          get_refresh_range p .append_only s e cached_last today = none) ∧
       (min (today - p.always_fetch_days) (cl + 1) ≤ e →
          get_refresh_range p .append_only s e cached_last today =
            some (min (today - p.always_fetch_days) (cl + 1), e))) ∧
    (get_refresh_range p .full_refresh s e cached_last today = some (s, e)) := by
  refine ⟨rfl, ?_, rfl⟩
  rintro cl rfl
  constructor
  · intro h
    unfold get_refresh_range
    dsimp only
    rw [if_pos h]
  · intro h
    unfold get_refresh_range
    dsimp only
    rw [if_neg (by omega : ¬ min (today - p.always_fetch_days) (cl + 1) > e)]

/-- Witness for C7: with the default policy on day 100, a cache ending on
day 50 and a request ending on day 40, the append-only window is empty. -/
theorem get_refresh_range_spec_witness :
    get_refresh_range {} .append_only 0 40 (some 50) 100 = none := by
  have h := (get_refresh_range_spec {} 0 40 100 (some 50)).2.1 50 rfl
  exact h.1 (by decide)

theorem store_bars_bars_self (t : String) (bs : List (Int × BarData)) (db : DB) :
    (store_bars t bs db).bars t = storeBarsList bs (db.bars t) := by
  unfold store_bars
  simp

theorem meta_total_update2 (t : String) (nowA nowB : Int) {dbA dbB : DB}
    (hb : dbA.bars t = dbB.bars t)
    (hmnone : dbA.bars t = [] → dbA.meta t = dbB.meta t) :
    ((update_metadata t nowA dbA).meta t).map (fun r => r.total_bars)
      = ((update_metadata t nowB dbB).meta t).map (fun r => r.total_bars) := by
  cases hmin : ((dbA.bars t).map Prod.fst).min? with
  | none =>
    have hnil : dbA.bars t = [] := by
      have := List.min?_eq_none_iff.mp hmin
      simpa using this
    have e1 : update_metadata t nowA dbA = dbA := update_metadata_of_empty hnil
    have e2 : update_metadata t nowB dbB = dbB :=
      update_metadata_of_empty (by rw [← hb]; exact hnil)
    rw [e1, e2, hmnone hnil]
  | some fd =>
    cases hmax : ((dbA.bars t).map Prod.fst).max? with
    | none =>
      have hnil : dbA.bars t = [] := by
        have := List.max?_eq_none_iff.mp hmax
        simpa using this
      rw [hnil] at hmin
      simp at hmin
    | some ld =>
      rw [meta_update_metadata_of_bounds hmin hmax,
        meta_update_metadata_of_bounds (by rw [← hb]; exact hmin)
          (by rw [← hb]; exact hmax)]
      simp [hb]

/-- Claim C4: storing is an idempotent upsert keyed by (symbol, date):
storing the same list twice (each store followed by the metadata
recomputation, as in fetch_and_store) leaves the bar table, the recorded
total_bars and the output of every read unchanged, and re-storing an
already-present (symbol, date) replaces its value in place without changing
the number of rows. -/
theorem store_upsert_idempotent (t : String) (bs : List (Int × BarData))
    (db : DB) (now now2 : Int) (hs : DatesSorted (db.bars t)) :
    ((update_metadata t now2
        (store_bars t bs (update_metadata t now (store_bars t bs db)))).bars
      = (update_metadata t now (store_bars t bs db)).bars) ∧
    (((update_metadata t now2
        (store_bars t bs (update_metadata t now (store_bars t bs db)))).meta t).map
          (fun r => r.total_bars)
      = ((update_metadata t now (store_bars t bs db)).meta t).map
          (fun r => r.total_bars)) ∧
    (∀ a b,
       readBars (update_metadata t now2
           (store_bars t bs (update_metadata t now (store_bars t bs db)))) t a b
         = readBars (update_metadata t now (store_bars t bs db)) t a b) ∧
    (∀ d v w, lookupDate d (db.bars t) = some w →
       lookupDate d ((store_bars t [(d, v)] db).bars t) = some v ∧
       ((store_bars t [(d, v)] db).bars t).length = (db.bars t).length) := by
  have hbars1 : (update_metadata t now (store_bars t bs db)).bars t
      = storeBarsList bs (db.bars t) := by
    rw [bars_update_metadata, store_bars_bars_self]
  have hgoal1 : (store_bars t bs (update_metadata t now (store_bars t bs db))).bars
      = (update_metadata t now (store_bars t bs db)).bars := by
    funext u
    by_cases hu : u = t
    · subst hu
      rw [store_bars_bars_self, hbars1, storeBarsList_idem bs hs]
    · unfold store_bars
      dsimp only
      rw [if_neg hu]
  refine ⟨?_, ?_, ?_, ?_⟩
  · rw [bars_update_metadata, hgoal1]
  · apply meta_total_update2
    · rw [congrFun hgoal1 t, hbars1, store_bars_bars_self]
    · intro hnil
      have hnil2 : (store_bars t bs db).bars t = [] := by
        rw [store_bars_bars_self]
        rw [congrFun hgoal1 t, hbars1] at hnil
        exact hnil
      have e1 : update_metadata t now (store_bars t bs db) = store_bars t bs db :=
        update_metadata_of_empty hnil2
      show (store_bars t bs (update_metadata t now (store_bars t bs db))).meta t
          = (store_bars t bs db).meta t
      rw [e1]
      rfl
  · intro a b
    unfold readBars
    rw [bars_update_metadata, congrFun hgoal1 t]
  · intro d v w hlk
    constructor
    · rw [store_bars_bars_self]
      show lookupDate d (upsertDate d v (db.bars t)) = some v
      rw [lookupDate_upsertDate]
      simp
    · rw [store_bars_bars_self]
      show (upsertDate d v (db.bars t)).length = (db.bars t).length
      exact length_upsertDate_of_lookup hs hlk

/-- A concrete store for the C4 witness: one bar for A on day 1. -/
def dbC4 : DB :=
  { bars := fun u => if u = "A" then [(1, ⟨1, 1, 1, 1, 1⟩)] else []
    meta := fun _ => none }

/-- The replacement value for the C4 witness. -/
def barC4 : BarData := ⟨2, 3, 1, 2, 50⟩

/-- Witness for C4: re-storing day 1 of A replaces the value in place and
leaves the row count unchanged. -/
theorem store_upsert_idempotent_witness :
    lookupDate 1 ((store_bars "A" [(1, barC4)] dbC4).bars "A") = some barC4 ∧
    ((store_bars "A" [(1, barC4)] dbC4).bars "A").length = (dbC4.bars "A").length :=
  (store_upsert_idempotent "A" [] dbC4 0 0 (by decide)).2.2.2 1 barC4
    ⟨1, 1, 1, 1, 1⟩ (by decide)

theorem invalidate_range_eq (t : String) (s e now : Int) (db : DB) :
    invalidate_range t s e now db =
      ((db.bars t).length -
         ((db.bars t).filter (fun b => !(decide (s ≤ b.1 ∧ b.1 ≤ e)))).length,
       update_metadata t now
         { db with bars := fun u => if u = t then
             (db.bars t).filter (fun b => !(decide (s ≤ b.1 ∧ b.1 ≤ e)))
           else db.bars u }) := rfl

theorem min?_max?_of_ne_nil {l : List Int} (h : l ≠ []) :
    ∃ fd ld, l.min? = some fd ∧ l.max? = some ld := by
  cases hmin : l.min? with
  | none => exact absurd (List.min?_eq_none_iff.mp hmin) h
  | some fd =>
    cases hmax : l.max? with
    | none => exact absurd (List.max?_eq_none_iff.mp hmax) h
    | some ld => exact ⟨fd, ld, rfl, rfl⟩

theorem update_metadata_total_of_ne_nil (t : String) (now : Int) (dbA : DB)
    (h : dbA.bars t ≠ []) :
    ∃ r, (update_metadata t now dbA).meta t = some r ∧
      r.total_bars = ((update_metadata t now dbA).bars t).length := by
  obtain ⟨fd, ld, hmin, hmax⟩ :=
    min?_max?_of_ne_nil (l := (dbA.bars t).map Prod.fst) (by simpa using h)
  refine ⟨_, meta_update_metadata_of_bounds hmin hmax, ?_⟩
  rw [bars_update_metadata]

/-- Claim C3 (amended): after every store the recomputed metadata row
records the exact row count and the min/max stored dates, and whole-symbol
invalidation removes both the rows and the metadata row; range invalidation
recomputes the metadata only when rows remain, however — when it removes
the last remaining rows of the symbol, the previous metadata row is
retained unchanged (stale) rather than recomputed to an empty/absent
state. -/
theorem metadata_recompute_spec (t : String) (now : Int) (db : DB) :
    ((∀ fd ld, ((db.bars t).map Prod.fst).min? = some fd →
        ((db.bars t).map Prod.fst).max? = some ld →
        ∃ r, (update_metadata t now db).meta t = some r ∧
          r.coverage = some (fd, ld) ∧
          r.total_bars = (db.bars t).length) ∧
     (db.bars t = [] → update_metadata t now db = db) ∧
     (∀ s e,
        ((invalidate_range t s e now db).2.bars t =
           (db.bars t).filter (fun b => !(decide (s ≤ b.1 ∧ b.1 ≤ e)))) ∧
        ((db.bars t).filter (fun b => !(decide (s ≤ b.1 ∧ b.1 ≤ e))) = [] →
           (invalidate_range t s e now db).2.meta = db.meta) ∧
        ((db.bars t).filter (fun b => !(decide (s ≤ b.1 ∧ b.1 ≤ e))) ≠ [] →
           ∃ r, (invalidate_range t s e now db).2.meta t = some r ∧
             r.total_bars = ((invalidate_range t s e now db).2.bars t).length)) ∧
     ((invalidate_ticker t db).2.meta (upperStr t) = none ∧
      (invalidate_ticker t db).2.bars (upperStr t) = [] ∧
      (invalidate_ticker t db).1 = (db.bars (upperStr t)).length)) := by
  refine ⟨?_, ?_, ?_, ?_, ?_, ?_⟩
  · intro fd ld hmin hmax
    exact ⟨_, meta_update_metadata_of_bounds hmin hmax, rfl, rfl⟩
  · exact fun h => update_metadata_of_empty h
  · intro s e
    have hkb : (update_metadata t now
        { db with bars := fun u => if u = t then
            (db.bars t).filter (fun b => !(decide (s ≤ b.1 ∧ b.1 ≤ e)))
          else db.bars u }).bars t =
        (db.bars t).filter (fun b => !(decide (s ≤ b.1 ∧ b.1 ≤ e))) := by
      rw [bars_update_metadata]
      dsimp only
      rw [if_pos rfl]
    refine ⟨?_, ?_, ?_⟩
    · rw [invalidate_range_eq]
      exact hkb
    · intro hnil
      rw [invalidate_range_eq]
      dsimp only
      have : update_metadata t now
          { db with bars := fun u => if u = t then
              (db.bars t).filter (fun b => !(decide (s ≤ b.1 ∧ b.1 ≤ e)))
            else db.bars u } =
          { db with bars := fun u => if u = t then
              (db.bars t).filter (fun b => !(decide (s ≤ b.1 ∧ b.1 ≤ e)))
            else db.bars u } := by
        apply update_metadata_of_empty
        dsimp only
        rw [if_pos rfl]
        exact hnil
      rw [this]
    · intro hne
      rw [invalidate_range_eq]
      dsimp only
      apply update_metadata_total_of_ne_nil
      dsimp only
      rw [if_pos rfl]
      exact hne
  · unfold invalidate_ticker
    dsimp only
    rw [if_pos rfl]
  · unfold invalidate_ticker
    dsimp only
    rw [if_pos rfl]
  · rfl

/-- A concrete empty store for the C3 witness. -/
def dbC3w : DB := { bars := fun _ => [], meta := fun _ => none }

/-- Witness for C3 (amended): on an empty table the metadata recomputation
writes nothing. -/
theorem metadata_recompute_spec_witness :
    update_metadata "A" 5 dbC3w = dbC3w :=
  (metadata_recompute_spec "A" 5 dbC3w).2.1 rfl

/-- The metadata row of the C3 counterexample, consistent before the
invalidation. -/
def metaRowC3 : MetaRow :=
  { coverage := some (0, 0), last_updated := some 0, last_full_refresh := none,
    total_bars := 1, is_sp500 := false, status := "active" }

/-- A store holding exactly one bar for A on day 0, with consistent
metadata. -/
def dbC3 : DB :=
  { bars := fun u => if u = "A" then [(0, ⟨1, 1, 1, 1, 1⟩)] else []
    meta := fun u => if u = "A" then some metaRowC3 else none }

/-- Counterexample to C3 as stated: invalidating the range 0..0 removes the
last remaining row of A, yet the metadata row is left unchanged, retaining
the stale total_bar_count of 1, instead of being recomputed to an
empty/absent state. -/
theorem invalidate_range_stale_metadata_cex :
    ((invalidate_range "A" 0 0 7 dbC3).2.bars "A").length = 0 ∧
    (invalidate_range "A" 0 0 7 dbC3).2.meta "A" = some metaRowC3 ∧
    metaRowC3.total_bars = 1 := by
  refine ⟨rfl, rfl, rfl⟩

/-! ### Batch orchestrator lemmas -/

/-- The (id, status) projection of the jobs table, which the single-flight
invariant is about. -/
def jkeys (js : JobsState) : List (Nat × String) :=
  js.jobs.map (fun j => (j.id, j.status))

/-- Invariant of the orchestrator state: job ids are unique and below the
AUTOINCREMENT counter; with no live worker thread no job row is running;
with a live thread the current-job global carries the id of the unique
running job. -/
def JobsInv (js : JobsState) : Prop :=
  ((jkeys js).map Prod.fst).Nodup ∧
  (∀ k ∈ jkeys js, k.1 < js.next_id) ∧
  (js.thread_alive = false → ∀ k ∈ jkeys js, k.2 ≠ "running") ∧
  (js.thread_alive = true → ∃ jid, js.current_job_id = some jid ∧
     ∀ k ∈ jkeys js, k.2 = "running" → k.1 = jid)

theorem map_proj_map {f : JobRow → JobRow}
    (hf : ∀ j, ((f j).id, (f j).status) = (j.id, j.status)) (l : List JobRow) :
    (l.map f).map (fun j => (j.id, j.status)) = l.map (fun j => (j.id, j.status)) := by
  induction l with
  | nil => rfl
  | cons a tl ih => simp only [List.map_cons, hf a, ih]

theorem jkeys_update_job_progress (jid p f : Nat) (js : JobsState) :
    jkeys (update_job_progress jid p f js) = jkeys js := by
  unfold jkeys update_job_progress
  dsimp only
  apply map_proj_map
  intro j
  by_cases h : j.id = jid <;> simp [h]

theorem jkeys_complete_job (jid : Nat) (st : String) (msg : Option String)
    (js : JobsState) :
    jkeys (complete_job jid st msg js) =
      (jkeys js).map (fun k => (k.1, if k.1 = jid then st else k.2)) := by
  unfold jkeys complete_job
  dsimp only
  induction js.jobs with
  | nil => rfl
  | cons a tl ih =>
    by_cases h : a.id = jid <;> simp [h, ih]

theorem cacheAllGo_state (jid f0 : Nat) :
    ∀ (outs : List (String × TickerOutcome)) (i : Nat) (acc : CacheAllResult)
      (js : JobsState),
      jkeys (cacheAllGo (fun p _ s => update_job_progress jid p f0 s) outs i acc js).2
          = jkeys js ∧
      (cacheAllGo (fun p _ s => update_job_progress jid p f0 s) outs i acc js).2.thread_alive
          = js.thread_alive ∧
      (cacheAllGo (fun p _ s => update_job_progress jid p f0 s) outs i acc js).2.current_job_id
          = js.current_job_id ∧
      (cacheAllGo (fun p _ s => update_job_progress jid p f0 s) outs i acc js).2.next_id
          = js.next_id := by
  intro outs
  induction outs with
  | nil => intro i acc js; exact ⟨rfl, rfl, rfl, rfl⟩
  | cons o rest ih =>
    intro i acc js
    obtain ⟨tk, outc⟩ := o
    cases outc <;>
      exact ⟨(ih (i + 1) _ (update_job_progress jid (i + 1) f0 js)).1.trans
               (jkeys_update_job_progress jid (i + 1) f0 js),
             (ih (i + 1) _ (update_job_progress jid (i + 1) f0 js)).2.1,
             (ih (i + 1) _ (update_job_progress jid (i + 1) f0 js)).2.2.1,
             (ih (i + 1) _ (update_job_progress jid (i + 1) f0 js)).2.2.2⟩

theorem run_job_shape (outs : List (String × TickerOutcome)) (jid : Nat)
    (js : JobsState) :
    ∃ st, (st = "completed" ∨ st = "completed_with_errors") ∧
      jkeys (run_sp500_cache_job outs jid js) =
        (jkeys js).map (fun k => (k.1, if k.1 = jid then st else k.2)) ∧
      (run_sp500_cache_job outs jid js).thread_alive = js.thread_alive ∧
      (run_sp500_cache_job outs jid js).current_job_id = js.current_job_id ∧
      (run_sp500_cache_job outs jid js).next_id = js.next_id := by
  unfold run_sp500_cache_job cache_all
  dsimp only
  by_cases h : (cacheAllGo (fun p _ s => update_job_progress jid p 0 s)
      outs 0 ⟨0, 0, []⟩ js).1.fail_count > 0
  · rw [if_pos h]
    exact ⟨"completed_with_errors", Or.inr rfl,
      (jkeys_complete_job jid _ _ _).trans
        (by rw [(cacheAllGo_state jid 0 outs 0 ⟨0, 0, []⟩ js).1]),
      (cacheAllGo_state jid 0 outs 0 ⟨0, 0, []⟩ js).2.1,
      (cacheAllGo_state jid 0 outs 0 ⟨0, 0, []⟩ js).2.2.1,
      (cacheAllGo_state jid 0 outs 0 ⟨0, 0, []⟩ js).2.2.2⟩
  · rw [if_neg h]
    exact ⟨"completed", Or.inl rfl,
      (jkeys_complete_job jid _ _ _).trans
        (by rw [(cacheAllGo_state jid 0 outs 0 ⟨0, 0, []⟩ js).1]),
      (cacheAllGo_state jid 0 outs 0 ⟨0, 0, []⟩ js).2.1,
      (cacheAllGo_state jid 0 outs 0 ⟨0, 0, []⟩ js).2.2.1,
      (cacheAllGo_state jid 0 outs 0 ⟨0, 0, []⟩ js).2.2.2⟩

theorem map_fst_status_update (l : List (Nat × String)) (jid : Nat) (st : String) :
    (l.map (fun k => (k.1, if k.1 = jid then st else k.2))).map Prod.fst
      = l.map Prod.fst := by
  induction l with
  | nil => rfl
  | cons a tl ih => simp only [List.map_cons, ih]

theorem nodup_const_length_le_one {α : Type} {l : List α} {a : α}
    (hn : l.Nodup) (hc : ∀ x ∈ l, x = a) : l.length ≤ 1 := by
  cases l with
  | nil => simp
  | cons x tl =>
    cases tl with
    | nil => simp
    | cons y tl2 =>
      exfalso
      have hx : x = a := hc x (by simp)
      have hy : y = a := hc y (by simp)
      have hn2 := List.nodup_cons.mp hn
      exact hn2.1 (by rw [hx, hy]; exact List.mem_cons_self _ _)

theorem length_running_eq_filter_jkeys (js : JobsState) :
    (running_jobs js).length =
      ((jkeys js).filter (fun k => k.2 == "running")).length := by
  unfold running_jobs jkeys
  induction js.jobs with
  | nil => rfl
  | cons a tl ih =>
    cases hp : a.status == "running" <;>
      simp [List.filter_cons, hp, ih]

theorem running_count_le_one {js : JobsState} (h : JobsInv js) :
    (running_jobs js).length ≤ 1 := by
  rw [length_running_eq_filter_jkeys]
  cases ha : js.thread_alive with
  | false =>
    have hno := h.2.2.1 ha
    have : (jkeys js).filter (fun k => k.2 == "running") = [] := by
      rw [List.filter_eq_nil_iff]
      intro k hk
      simpa using hno k hk
    simp [this]
  | true =>
    obtain ⟨jid, _, hall⟩ := h.2.2.2 ha
    rw [← List.length_map _ Prod.fst]
    apply nodup_const_length_le_one (a := jid)
    · exact h.1.sublist (List.Sublist.map _ (List.filter_sublist _))
    · intro x hx
      obtain ⟨k, hk, hkx⟩ := List.mem_map.mp hx
      have hk2 := List.mem_filter.mp hk
      have : k.2 = "running" := by simpa using hk2.2
      rw [← hkx]
      exact hall k hk2.1 this

theorem start_job_next_state (tks : List (String × TickerOutcome))
    (js : JobsState) (ha : js.thread_alive = false) :
    jkeys (start_sp500_cache_job tks js).2 = jkeys js ++ [(js.next_id, "running")] ∧
    (start_sp500_cache_job tks js).2.thread_alive = true ∧
    (start_sp500_cache_job tks js).2.current_job_id = some js.next_id ∧
    (start_sp500_cache_job tks js).2.next_id = js.next_id + 1 := by
  unfold start_sp500_cache_job create_cache_job
  rw [if_neg (by simp [ha])]
  refine ⟨?_, rfl, rfl, rfl⟩
  unfold jkeys
  simp

theorem jobsInv_step {js : JobsState} (h : JobsInv js) (ev : JobEvent) :
    JobsInv (job_step js ev) := by
  cases ev with
  | start tks =>
    show JobsInv (start_sp500_cache_job tks js).2
    cases ha : js.thread_alive with
    | true =>
      unfold start_sp500_cache_job
      rw [if_pos ha]
      exact h
    | false =>
      obtain ⟨hk, hal, hcur, hnext⟩ := start_job_next_state tks js ha
      refine ⟨?_, ?_, ?_, ?_⟩
      · rw [hk, List.map_append, List.nodup_append]
        refine ⟨h.1, by simp, ?_⟩
        intro x hx
        have hxk : x < js.next_id := by
          obtain ⟨k, hkm, hkx⟩ := List.mem_map.mp hx
          rw [← hkx]; exact h.2.1 k hkm
        simp
        omega
      · rw [hk, hnext]
        intro k hkm
        rcases List.mem_append.mp hkm with hk1 | hk1
        · have := h.2.1 k hk1
          omega
        · simp at hk1
          rw [hk1]
          omega
      · intro hfalse
        rw [hal] at hfalse
        exact absurd hfalse (by simp)
      · intro _
        refine ⟨js.next_id, hcur, ?_⟩
        rw [hk]
        intro k hkm hkr
        rcases List.mem_append.mp hkm with hk1 | hk1
        · exact absurd hkr (h.2.2.1 ha k hk1)
        · simp at hk1
          rw [hk1]
  | finish outs =>
    show JobsInv (job_step js (.finish outs))
    unfold job_step
    cases ha : js.thread_alive with
    | false =>
      cases hc : js.current_job_id <;> exact h
    | true =>
      cases hc : js.current_job_id with
      | none => exact h
      | some jid =>
        dsimp only
        obtain ⟨st, hst, hk, _, _, hnext⟩ := run_job_shape outs jid js
        obtain ⟨jid2, hc2, hall⟩ := h.2.2.2 ha
        have hjid : jid2 = jid := by
          rw [hc] at hc2
          exact (Option.some.inj hc2).symm
        rw [hjid] at hall
        refine ⟨?_, ?_, ?_, ?_⟩
        · show ((jkeys (run_sp500_cache_job outs jid js)).map Prod.fst).Nodup
          rw [hk, map_fst_status_update]
          exact h.1
        · show ∀ k ∈ jkeys (run_sp500_cache_job outs jid js),
            k.1 < (run_sp500_cache_job outs jid js).next_id
          rw [hk, hnext]
          intro k hkm
          obtain ⟨k0, hk0, hk0e⟩ := List.mem_map.mp hkm
          rw [← hk0e]
          exact h.2.1 k0 hk0
        · intro _
          show ∀ k ∈ jkeys (run_sp500_cache_job outs jid js), k.2 ≠ "running"
          rw [hk]
          intro k hkm
          obtain ⟨k0, hk0, hk0e⟩ := List.mem_map.mp hkm
          rw [← hk0e]
          dsimp only
          by_cases he : k0.1 = jid
          · rw [if_pos he]
            rcases hst with hst | hst <;> rw [hst] <;> simp
          · rw [if_neg he]
            intro hrun
            exact he (hall k0 hk0 hrun)
        · intro habs
          simp at habs

/-- Claim C8: starting a universe job while the worker thread is alive
returns a conflict carrying the current job id and changes nothing; the
orchestrator transitions preserve the state invariant; under the invariant
at most one job row has status running, and the current-job global names
every running job row (so the conflict response carries the running job
id). -/
theorem single_flight_spec (js : JobsState) (tks : List (String × TickerOutcome)) :
    ((js.thread_alive = true →
       (start_sp500_cache_job tks js).1 = .already_running js.current_job_id ∧
       (start_sp500_cache_job tks js).2 = js) ∧
     (JobsInv js → ∀ ev, JobsInv (job_step js ev)) ∧
     (JobsInv js → (running_jobs js).length ≤ 1) ∧
     (JobsInv js → js.thread_alive = true →
       ∀ j ∈ running_jobs js, js.current_job_id = some j.id)) := by
  refine ⟨?_, ?_, ?_, ?_⟩
  · intro ha
    unfold start_sp500_cache_job
    rw [if_pos ha]
    exact ⟨rfl, rfl⟩
  · exact fun h ev => jobsInv_step h ev
  · exact fun h => running_count_le_one h
  · intro h ha j hj
    obtain ⟨jid, hc, hall⟩ := h.2.2.2 ha
    have hj2 := List.mem_filter.mp hj
    have hrun : j.status = "running" := by simpa using hj2.2
    have : j.id = jid :=
      hall (j.id, j.status) (List.mem_map_of_mem _ hj2.1) hrun
    rw [hc, this]

/-- A state with one running job for the C8 witness. -/
def jsC8 : JobsState :=
  { jobs := [{ id := 1, job_type := "sp500_full", status := "running",
               tickers_total := 5, tickers_processed := 2, tickers_failed := 0,
               error_message := none }],
    thread_alive := true, current_job_id := some 1, next_id := 2 }

/-- Witness for C8: starting a second job while one runs answers a conflict
with the running job id, leaves the state unchanged, and the running count
is at most one. -/
theorem single_flight_spec_witness :
    (start_sp500_cache_job [] jsC8).1 = .already_running (some 1) ∧
    (start_sp500_cache_job [] jsC8).2 = jsC8 ∧
    (running_jobs jsC8).length ≤ 1 := by
  have hinv : JobsInv jsC8 := by
    refine ⟨by decide, by decide, ?_, ?_⟩
    · intro hfalse
      exact absurd hfalse (by decide)
    · intro _
      exact ⟨1, rfl, by decide⟩
  have h := single_flight_spec jsC8 []
  exact ⟨(h.1 rfl).1, (h.1 rfl).2, h.2.2.1 hinv⟩

/-- The failing input for C9: a 10-symbol universe where symbols 3, 5 and 7
fail with a non-rate-limit upstream error. -/
def outcomesC9 : List (String × TickerOutcome) :=
  [("T1", .success), ("T2", .success), ("T3", .otherFailure),
   ("T4", .success), ("T5", .otherFailure), ("T6", .success),
   ("T7", .otherFailure), ("T8", .success), ("T9", .success),
   ("T10", .success)]

/-- The initial, empty orchestrator state for C9. -/
def jsC9 : JobsState :=
  { jobs := [], thread_alive := false, current_job_id := none, next_id := 1 }

/-- SELECT of a job row by id (the lookup of get_job_status). -/
def find_job (js : JobsState) (jid : Nat) : Option JobRow :=
  js.jobs.find? (fun j => j.id == jid)

/-- Claim C9, evaluated on its scenario: after a batch run over 10 symbols
in which exactly 3 fail with a non-rate-limit upstream error, the job row
ends with status completed_with_errors and tickers_processed 10, but with
tickers_failed 0 — not 3: the progress callback closes over a failure
counter that is reassigned only after the loop has ended, and the final
completion update never writes tickers_failed.  A failure-free run ends
with status completed. -/
theorem batch_job_failed_count_eval :
    (find_job (run_sp500_cache_job outcomesC9 1
        (create_cache_job "sp500_full" 10 jsC9).2) 1 =
      some { id := 1, job_type := "sp500_full", status := "completed_with_errors",
             tickers_total := 10, tickers_processed := 10, tickers_failed := 0,
             error_message := some "Failed tickers: T3, T5, T7" }) ∧
    ((find_job (run_sp500_cache_job (outcomesC9.map (fun p => (p.1, .success))) 1
        (create_cache_job "sp500_full" 10 jsC9).2) 1).map (fun j => j.status) =
      some "completed") := by
  exact ⟨by decide, by decide⟩

end PriceCache
